import Mathlib

/-!
Verification development for the query analysis engine of the
datadog-query-linter repository (src/main.go).

Strings are modelled as `List Char`, one entry per byte of the Go string;
this is exact for ASCII queries, where Go's byte indexing and rune
iteration coincide.  Loops that advance by a computed amount are written
with an explicit fuel argument (always called with enough fuel) so that
every definition is executable by the kernel.
-/

namespace QueryLinter

/-- MetricInfo from src/main.go: one metric found inside a query. -/
structure MetricInfo where
  OriginalMetric : List Char
  CleanMetric : List Char
  HasDefaultZero : Bool
  DefaultZeroNesting : ℕ
  StartPos : ℕ
  EndPos : ℕ
  deriving DecidableEq, Repr

/-- QueryAnalysis from src/main.go: the result of analyzing one query. -/
structure QueryAnalysis where
  OriginalQuery : List Char
  HasDefaultZero : Bool
  InnerQuery : List Char
  DefaultZeroNesting : ℕ
  Metrics : List MetricInfo
  IsComplexQuery : Bool
  deriving DecidableEq, Repr

/-- Go `unicode.IsSpace` (the Unicode White_Space property), used by
`strings.TrimSpace`. -/
def goIsSpace (c : Char) : Bool :=
  c = '\t' || c = '\n' || c = '\u000B' || c = '\u000C' || c = '\r' || c = ' ' ||
  c = '\u0085' || c = '\u00A0' || c = '\u1680' ||
  (('\u2000' ≤ c) && (c ≤ '\u200A')) ||
  c = '\u2028' || c = '\u2029' || c = '\u202F' || c = '\u205F' || c = '\u3000'

/-- The whitespace class of Go regexp (RE2 class backslash-s). -/
def isRegexSpace (c : Char) : Bool :=
  c = '\t' || c = '\n' || c = '\u000C' || c = '\r' || c = ' '

/-- Go `strings.HasPrefix pat s` check: the first list is the pattern. -/
def strStarts : List Char → List Char → Bool
  | [], _ => true
  | _ :: _, [] => false
  | p :: ps, c :: cs => p = c && strStarts ps cs

/-- Left part of Go `strings.TrimSpace`. -/
def trimLeft (l : List Char) : List Char := l.dropWhile goIsSpace

/-- Right part of Go `strings.TrimSpace`. -/
def trimRight (l : List Char) : List Char := (l.reverse.dropWhile goIsSpace).reverse

/-- Go `strings.TrimSpace`. -/
def trimSpace (l : List Char) : List Char := trimRight (trimLeft l)

/-- Go slicing `query[s:e]`. -/
def slice (q : List Char) (s e : ℕ) : List Char := (q.drop s).take (e - s)

/-- The wrapper name: the 12 characters of the literal default_zero. -/
def dzNameL : List Char := ("default_zero".toList)

/-- Match of the anchored Go regex that peels one wrapper layer
(`^default_zero\s*\((.+)\)$` in src/main.go), returning the capture.
The capture group is the greedy dot-plus: everything strictly between the
opening parenthesis and a final closing parenthesis, nonempty and
newline-free (RE2 dot does not match a newline). -/
def dzAnchoredCapture (s : List Char) : Option (List Char) :=
  if strStarts dzNameL s then
    match (s.drop 12).dropWhile isRegexSpace with
    | '(' :: tail =>
      if tail.getLast? = some ')' ∧ tail.dropLast ≠ [] ∧ tail.dropLast.all (· ≠ '\n') then
        some tail.dropLast
      else none
    | _ => none
  else none

/-- The peeling loop of extractInnerQuery (src/main.go): repeatedly match
the anchored wrapper pattern; on a match increment the nesting counter,
trim the capture, and either return it (when it does not itself begin with
the wrapper name) or keep peeling.  Fuel bounds the number of layers. -/
def eiqLoop : ℕ → List Char → ℕ → (List Char × ℕ)
  | 0, trimmed, nesting => (trimmed, nesting)
  | fuel + 1, trimmed, nesting =>
    match dzAnchoredCapture trimmed with
    | none => (trimmed, nesting)
    | some capture =>
      let inner := trimSpace capture
      if strStarts dzNameL inner then eiqLoop fuel inner (nesting + 1)
      else (inner, nesting + 1)

/-- extractInnerQuery from src/main.go: returns the innermost query and the
number of default_zero layers peeled. -/
def extractInnerQuery (query : List Char) : List Char × ℕ :=
  eiqLoop (query.length + 1) (trimSpace query) 0

/-- The four arithmetic operator characters of the classifier's switch. -/
def isOpChar (c : Char) : Bool :=
  c = '+' || c = '-' || c = '*' || c = '/'

/-- The operator scan of isComplexQuery (src/main.go): walk the query
tracking brace and parenthesis depth; an operator character found at brace
depth zero, at an interior index, with the flanking condition, returns
true immediately. -/
def opScanAux (orig : List Char) : List Char → ℕ → ℤ → ℤ → Bool
  | [], _, _, _ => false
  | c :: rest, i, inBraces, inParens =>
    if c = '{' then opScanAux orig rest (i + 1) (inBraces + 1) inParens
    else if c = '}' then opScanAux orig rest (i + 1) (inBraces - 1) inParens
    else if c = '(' then opScanAux orig rest (i + 1) inBraces (inParens + 1)
    else if c = ')' then opScanAux orig rest (i + 1) inBraces (inParens - 1)
    else if isOpChar c then
      if inBraces = 0 ∧ 0 < i ∧ i + 1 < orig.length then
        if (orig.getD (i - 1) ' ' ≠ ' ' ∧ orig.getD (i + 1) ' ' ≠ ' ') ∨
            (c = '+' ∨ c = '-' ∨ c = '*' ∨ c = '/') then true
        else opScanAux orig rest (i + 1) inBraces inParens
      else opScanAux orig rest (i + 1) inBraces inParens
    else opScanAux orig rest (i + 1) inBraces inParens

/-- The operator scan applied to a whole query. -/
def opScanB (q : List Char) : Bool := opScanAux q q 0 0 0

/-- Go `strings.Count query pat` for a nonempty pattern: number of
non-overlapping occurrences, scanning left to right.  Fuel is the length
of the scanned string. -/
def countOccurAux (pat : List Char) : ℕ → List Char → ℕ
  | 0, _ => 0
  | _ + 1, [] => 0
  | fuel + 1, c :: rest =>
    if strStarts pat (c :: rest) then 1 + countOccurAux pat fuel ((c :: rest).drop pat.length)
    else countOccurAux pat fuel rest

/-- Go `strings.Count query pat`. -/
def countOccur (pat q : List Char) : ℕ := countOccurAux pat (q.length + 1) q

/-- The metric aggregation pattern list of isComplexQuery. -/
def metricPrefixes : List (List Char) :=
  [("avg:".toList), ("sum:".toList), ("count:".toList), ("min:".toList),
   ("max:".toList), ("rate:".toList), ("gauge:".toList)]

/-- Total count of aggregation pattern occurrences in the query. -/
def prefixTotal (q : List Char) : ℕ :=
  (metricPrefixes.map (fun pat => countOccur pat q)).sum

/-- isComplexQuery from src/main.go: true when the operator scan fires or
the total aggregation pattern count exceeds one. -/
def isComplexQuery (q : List Char) : Bool :=
  opScanB q || decide (1 < prefixTotal q)

/-- Brace depth before index `i`: the brace counter the classifier's scan
holds when it reaches index `i`. -/
def braceDepth (q : List Char) (i : ℕ) : ℤ :=
  ((q.take i).count '{' : ℤ) - ((q.take i).count '}' : ℤ)

/-- The parenthesis balancing loop of extractDefaultZeroMetrics
(src/main.go): from the opening parenthesis scan forward, counting depth;
return the index one past the closing parenthesis that brings the counter
back to zero, or none when the string ends first. -/
def findCloseAux : ℕ → ℤ → List Char → Option ℕ
  | _, _, [] => none
  | i, cnt, c :: rest =>
    if c = '(' then findCloseAux (i + 1) (cnt + 1) rest
    else if c = ')' then
      if cnt - 1 = 0 then some (i + 1) else findCloseAux (i + 1) (cnt - 1) rest
    else findCloseAux (i + 1) cnt rest

/-- Matching-close search started at the opening parenthesis position. -/
def findClose (q : List Char) (openPos : ℕ) : Option ℕ :=
  findCloseAux openPos 0 (q.drop openPos)

/-- Match of the unanchored Go regex `default_zero\s*\(` at one position:
returns the index one past the opening parenthesis when the wrapper name,
a run of regex whitespace and an opening parenthesis start there. -/
def dzMatchAt (q : List Char) (pos : ℕ) : Option ℕ :=
  if strStarts dzNameL (q.drop pos) then
    match (q.drop (pos + 12)).dropWhile isRegexSpace with
    | '(' :: _ => some (pos + 12 + ((q.drop (pos + 12)).takeWhile isRegexSpace).length + 1)
    | _ => none
  else none

/-- All matches of the wrapper-call token, as FindAllStringIndex yields
them: scan left to right, resume after each match end. -/
def dzFindAllAux (q : List Char) : ℕ → ℕ → List (ℕ × ℕ)
  | 0, _ => []
  | fuel + 1, pos =>
    if q.length ≤ pos then []
    else
      match dzMatchAt q pos with
      | some e => (pos, e) :: dzFindAllAux q fuel e
      | none => dzFindAllAux q fuel (pos + 1)

/-- All wrapper-call matches in the query. -/
def dzFindAll (q : List Char) : List (ℕ × ℕ) := dzFindAllAux q (q.length + 1) 0

/-- The wrapped MetricInfo built for a balanced wrapper call spanning
`[s, e)` of the query. -/
def mkDzMetric (q : List Char) (s e : ℕ) : MetricInfo :=
  { OriginalMetric := slice q s e
    CleanMetric := (extractInnerQuery (slice q s e)).1
    HasDefaultZero := true
    DefaultZeroNesting := (extractInnerQuery (slice q s e)).2
    StartPos := s
    EndPos := e }

/-- Marking of every offset of `[s, e)` in the covered-positions map. -/
def markRange (covered : ℕ → Bool) (s e : ℕ) : ℕ → Bool :=
  fun p => covered p || (decide (s ≤ p) && decide (p < e))

/-- The main loop of extractDefaultZeroMetrics (src/main.go): for each
wrapper-call match whose start is not yet covered, find the matching
close; when found, emit the wrapped metric and mark its span covered. -/
def dzLoop (q : List Char) : List (ℕ × ℕ) → (ℕ → Bool) → List MetricInfo
  | [], _ => []
  | (s, me) :: rest, covered =>
    if covered s then dzLoop q rest covered
    else
      match findClose q (me - 1) with
      | none => dzLoop q rest covered
      | some e => mkDzMetric q s e :: dzLoop q rest (markRange covered s e)

/-- extractDefaultZeroMetrics from src/main.go. -/
def extractDefaultZeroMetrics (q : List Char) : List MetricInfo :=
  dzLoop q (dzFindAll q) (fun _ => false)

/-- The body character class of the bare-metric regex. -/
def isWordDot (c : Char) : Bool :=
  c.isAlpha || c.isDigit || c = '.' || c = '_'

/-- The function-suffix character class of the bare-metric regex. -/
def isSuffChar (c : Char) : Bool :=
  c.isAlpha || c.isDigit || c = '_' || c = '(' || c = ')'

/-- The leading alternation of the bare-metric regex together with its
colon: returns the length of the alternative matching at the front. -/
def aggLenAt (s : List Char) : Option ℕ :=
  if strStarts ("avg:".toList) s then some 4
  else if strStarts ("sum:".toList) s then some 4
  else if strStarts ("count:".toList) s then some 6
  else if strStarts ("min:".toList) s then some 4
  else if strStarts ("max:".toList) s then some 4
  else if strStarts ("rate:".toList) s then some 5
  else if strStarts ("gauge:".toList) s then some 6
  else none

/-- Length consumed by the optional brace block of the bare-metric regex
at position `p`: a brace block is an opening brace, a run of non-brace
characters and a closing brace; anything else consumes nothing. -/
def braceLen (q : List Char) (p : ℕ) : ℕ :=
  match q.get? p with
  | some '{' =>
    match q.get? (p + 1 + ((q.drop (p + 1)).takeWhile (fun c => !(c = '}'))).length) with
    | some '}' => ((q.drop (p + 1)).takeWhile (fun c => !(c = '}'))).length + 2
    | _ => 0
  | _ => 0

/-- Length consumed by the starred function-call suffix of the bare-metric
regex: greedy repetitions of a dot followed by a nonempty run of suffix
characters. -/
def suffLenAux (q : List Char) : ℕ → ℕ → ℕ
  | 0, _ => 0
  | fuel + 1, p =>
    match q.get? p with
    | some '.' =>
      if ((q.drop (p + 1)).takeWhile isSuffChar).length = 0 then 0
      else
        1 + ((q.drop (p + 1)).takeWhile isSuffChar).length +
          suffLenAux q fuel (p + 1 + ((q.drop (p + 1)).takeWhile isSuffChar).length)
    | _ => 0

/-- Starred function-call suffix length at position `p`. -/
def suffLen (q : List Char) (p : ℕ) : ℕ := suffLenAux q (q.length + 1) p

/-- Match of the bare-metric regex of extractRemainingMetrics at one
position, returning the end of the greedy leftmost-first match. -/
def bareMatchAt (q : List Char) (pos : ℕ) : Option ℕ :=
  match aggLenAt (q.drop pos) with
  | none => none
  | some plen =>
    if ((q.drop (pos + plen)).takeWhile isWordDot).length = 0 then none
    else
      some (pos + plen + ((q.drop (pos + plen)).takeWhile isWordDot).length +
        braceLen q (pos + plen + ((q.drop (pos + plen)).takeWhile isWordDot).length) +
        suffLen q (pos + plen + ((q.drop (pos + plen)).takeWhile isWordDot).length +
          braceLen q (pos + plen + ((q.drop (pos + plen)).takeWhile isWordDot).length)))

/-- All bare-metric matches, as FindAllStringIndex yields them. -/
def bareFindAllAux (q : List Char) : ℕ → ℕ → List (ℕ × ℕ)
  | 0, _ => []
  | fuel + 1, pos =>
    if q.length ≤ pos then []
    else
      match bareMatchAt q pos with
      | some e => (pos, e) :: bareFindAllAux q fuel e
      | none => bareFindAllAux q fuel (pos + 1)

/-- All bare-metric matches in the query. -/
def bareFindAll (q : List Char) : List (ℕ × ℕ) := bareFindAllAux q (q.length + 1) 0

/-- The bare MetricInfo built for an uncovered bare-metric match. -/
def mkBareMetric (q : List Char) (s e : ℕ) : MetricInfo :=
  { OriginalMetric := slice q s e
    CleanMetric := slice q s e
    HasDefaultZero := false
    DefaultZeroNesting := 0
    StartPos := s
    EndPos := e }

/-- The covered-positions map built from a list of existing metrics, as
extractRemainingMetrics builds it. -/
def coveredOf (ms : List MetricInfo) : ℕ → Bool :=
  fun p => ms.any (fun m => decide (m.StartPos ≤ p) && decide (p < m.EndPos))

/-- The emitting loop of extractRemainingMetrics (src/main.go): a
bare-metric match is emitted only when none of its offsets is covered. -/
def remLoop (q : List Char) (covered : ℕ → Bool) : List (ℕ × ℕ) → List MetricInfo
  | [] => []
  | (s, e) :: rest =>
    if (List.range' s (e - s)).any covered then remLoop q covered rest
    else mkBareMetric q s e :: remLoop q covered rest

/-- extractRemainingMetrics from src/main.go. -/
def extractRemainingMetrics (q : List Char) (existing : List MetricInfo) : List MetricInfo :=
  remLoop q (coveredOf existing) (bareFindAll q)

/-- extractAllMetrics from src/main.go: the wrapped-metric pass followed by
the bare-metric pass over the spans it left uncovered. -/
def extractAllMetrics (q : List Char) : List MetricInfo :=
  extractDefaultZeroMetrics q ++ extractRemainingMetrics q (extractDefaultZeroMetrics q)

/-- Match of the open-ended Go regex `^default_zero\s*\(` used by the
simple path of parseQuery to detect a wrapper. -/
def dzOpenDetect (s : List Char) : Bool :=
  strStarts dzNameL s &&
    (match (s.drop 12).dropWhile isRegexSpace with
     | '(' :: _ => true
     | _ => false)

/-- parseQuery from src/main.go. -/
def parseQuery (query : List Char) : QueryAnalysis :=
  if isComplexQuery query then
    match extractAllMetrics query with
    | [] =>
      { OriginalQuery := query, HasDefaultZero := false, InnerQuery := [],
        DefaultZeroNesting := 0, Metrics := [], IsComplexQuery := true }
    | m :: rest =>
      { OriginalQuery := query, HasDefaultZero := m.HasDefaultZero,
        InnerQuery := m.CleanMetric, DefaultZeroNesting := m.DefaultZeroNesting,
        Metrics := m :: rest, IsComplexQuery := true }
  else
    if dzOpenDetect (trimSpace query) then
      { OriginalQuery := query, HasDefaultZero := true,
        InnerQuery := (extractInnerQuery query).1,
        DefaultZeroNesting := (extractInnerQuery query).2,
        Metrics := [{ OriginalMetric := query, CleanMetric := (extractInnerQuery query).1,
                      HasDefaultZero := true, DefaultZeroNesting := (extractInnerQuery query).2,
                      StartPos := 0, EndPos := query.length }],
        IsComplexQuery := false }
    else
      { OriginalQuery := query, HasDefaultZero := false, InnerQuery := [],
        DefaultZeroNesting := 0,
        Metrics := [{ OriginalMetric := query, CleanMetric := query,
                      HasDefaultZero := false, DefaultZeroNesting := 0,
                      StartPos := 0, EndPos := query.length }],
        IsComplexQuery := false }

/-- A complete wrapper call around an argument text. -/
def dzCall (mid : List Char) : List Char := dzNameL ++ '(' :: (mid ++ [')'])

/-- One layer of the wrapper call, with no interior whitespace. -/
def wrapDz (e : List Char) : List Char := dzCall e

/-- `k` layers of the wrapper call around a base expression. -/
def wrapK : ℕ → List Char → List Char
  | 0, e => e
  | k + 1, e => wrapDz (wrapK k e)

/-- One layer of the wrapper call with a space on each side of the
argument. -/
def wrapDzSp (e : List Char) : List Char := dzCall (' ' :: (e ++ [' ']))

/-! ### Lemmas about trimming and the anchored wrapper pattern -/

theorem strStarts_append (p r : List Char) : strStarts p (p ++ r) = true := by
  induction p with
  | nil => rfl
  | cons c cs ih => simp [strStarts, ih]

theorem dzCall_drop12 (mid : List Char) : (dzCall mid).drop 12 = '(' :: (mid ++ [')']) := by
  have h : (12 : ℕ) = dzNameL.length := by decide
  rw [dzCall, h, List.drop_left]

theorem capture_dzCall (mid : List Char) (hne : mid ≠ [])
    (hnl : mid.all (· ≠ '\n') = true) : dzAnchoredCapture (dzCall mid) = some mid := by
  unfold dzAnchoredCapture
  have hs : strStarts dzNameL (dzCall mid) = true := by
    rw [dzCall]; exact strStarts_append _ _
  rw [hs]
  simp only [if_true, dzCall_drop12]
  have hws : isRegexSpace '(' = false := by decide
  simp only [List.dropWhile_cons, hws, Bool.false_eq_true, if_false]
  simp only [List.getLast?_concat, List.dropLast_concat, hnl]
  simp [hne]

theorem dropWhile_len_le (p : Char → Bool) (l : List Char) :
    (l.dropWhile p).length ≤ l.length := by
  induction l with
  | nil => simp
  | cons c t ih =>
    rw [List.dropWhile_cons]
    split
    · simp only [List.length_cons]; omega
    · simp

theorem trimLeft_length_le (l : List Char) : (trimLeft l).length ≤ l.length :=
  dropWhile_len_le _ _

theorem trimRight_length_le (l : List Char) : (trimRight l).length ≤ l.length := by
  rw [trimRight, List.length_reverse]
  calc (l.reverse.dropWhile goIsSpace).length ≤ l.reverse.length := dropWhile_len_le _ _
    _ = l.length := List.length_reverse l

theorem trimSpace_length_le (l : List Char) : (trimSpace l).length ≤ l.length :=
  le_trans (trimRight_length_le _) (trimLeft_length_le _)

theorem trimLeft_cons_space (c : Char) (t : List Char) (h : goIsSpace c = true) :
    trimLeft (c :: t) = trimLeft t := by
  simp [trimLeft, List.dropWhile_cons, h]

theorem trimLeft_cons_nonspace (c : Char) (t : List Char) (h : goIsSpace c = false) :
    trimLeft (c :: t) = c :: t := by
  simp [trimLeft, List.dropWhile_cons, h]

theorem trimRight_of_last (l : List Char)
    (h : ∀ c, l.getLast? = some c → goIsSpace c = false) : trimRight l = l := by
  rw [trimRight]
  cases hr : l.reverse with
  | nil =>
    have : l = [] := by
      have := congrArg List.reverse hr
      simpa using this
    simp [this]
  | cons c t =>
    have hc : l.getLast? = some c := by
      rw [← List.head?_reverse, hr, List.head?_cons]
    rw [List.dropWhile_cons, h c hc]
    simp only [Bool.false_eq_true, if_false]
    rw [← hr, List.reverse_reverse]

theorem trimSpace_head_nonspace (E : List Char) (h : trimSpace E = E) :
    ∀ c, E.head? = some c → goIsSpace c = false := by
  intro c hc
  cases E with
  | nil => simp at hc
  | cons a t =>
    have hac : a = c := by simpa using hc
    subst hac
    cases hsp : goIsSpace a with
    | false => rfl
    | true =>
      exfalso
      have hlen : (trimSpace (a :: t)).length ≤ t.length := by
        rw [trimSpace, trimLeft_cons_space a t hsp]
        exact le_trans (trimRight_length_le _) (trimLeft_length_le _)
      have hlc := congrArg List.length h
      simp only [List.length_cons] at hlc
      omega

theorem trimParts_of_trimSpace_eq (E : List Char) (h : trimSpace E = E) :
    trimLeft E = E ∧ trimRight E = E := by
  have h1 : (trimSpace E).length ≤ (trimLeft E).length := trimRight_length_le _
  have h2 : (trimLeft E).length ≤ E.length := trimLeft_length_le _
  have hlenL : (trimLeft E).length = E.length := by
    have := congrArg List.length h
    omega
  have hL : trimLeft E = E := by
    cases E with
    | nil => rfl
    | cons c t =>
      cases hsp : goIsSpace c with
      | true =>
        exfalso
        rw [trimLeft_cons_space c t hsp] at hlenL
        have := trimLeft_length_le t
        simp only [List.length_cons] at hlenL
        omega
      | false => exact trimLeft_cons_nonspace c t hsp
  refine ⟨hL, ?_⟩
  rw [trimSpace, hL] at h
  exact h

theorem trimSpace_last_nonspace (E : List Char) (h : trimSpace E = E) :
    ∀ c, E.getLast? = some c → goIsSpace c = false := by
  intro c hc
  by_contra hb
  have hsp : goIsSpace c = true := by
    cases hx : goIsSpace c with
    | false => exact absurd hx hb
    | true => rfl
  have hR : trimRight E = E := (trimParts_of_trimSpace_eq E h).2
  cases hr : E.reverse with
  | nil =>
    have : E = [] := by
      have := congrArg List.reverse hr
      simpa using this
    rw [this] at hc
    simp at hc
  | cons d t =>
    have hd : E.getLast? = some d := by
      rw [← List.head?_reverse, hr, List.head?_cons]
    rw [hc] at hd
    injection hd with hd
    subst hd
    have hlen : (trimRight E).length ≤ t.length := by
      rw [trimRight, hr, List.dropWhile_cons, hsp]
      simp only [if_true, List.length_reverse]
      exact dropWhile_len_le _ _
    have hlenE : E.length = t.length + 1 := by
      have := congrArg List.length hr
      simp only [List.length_reverse, List.length_cons] at this
      omega
    have := congrArg List.length hR
    omega

theorem trim_id_of_ends (l : List Char)
    (hh : ∀ c, l.head? = some c → goIsSpace c = false)
    (hl : ∀ c, l.getLast? = some c → goIsSpace c = false) : trimSpace l = l := by
  have hL : trimLeft l = l := by
    cases l with
    | nil => rfl
    | cons c t => exact trimLeft_cons_nonspace c t (hh c rfl)
  rw [trimSpace, hL]
  exact trimRight_of_last l hl

theorem dzCall_head (mid : List Char) : (dzCall mid).head? = some 'd' := rfl

theorem dzCall_getLast (mid : List Char) : (dzCall mid).getLast? = some ')' := by
  have h : dzCall mid = (dzNameL ++ '(' :: mid) ++ [')'] := by
    simp [dzCall]
  rw [h, List.getLast?_concat]

theorem trim_spaced (E : List Char) (hE : trimSpace E = E) (hne : E ≠ []) :
    trimSpace (' ' :: (E ++ [' '])) = E := by
  obtain ⟨c, t, rfl⟩ : ∃ c t, E = c :: t := by
    cases E with
    | nil => exact absurd rfl hne
    | cons c t => exact ⟨c, t, rfl⟩
  have hhead : goIsSpace c = false :=
    trimSpace_head_nonspace _ hE c (by simp)
  have hsp : goIsSpace ' ' = true := by decide
  rw [trimSpace, trimLeft_cons_space _ _ hsp]
  have hL : trimLeft ((c :: t) ++ [' ']) = (c :: t) ++ [' '] := by
    rw [List.cons_append]
    exact trimLeft_cons_nonspace _ _ hhead
  rw [hL]
  rw [trimRight]
  have hrev : ((c :: t) ++ [' ']).reverse = ' ' :: (c :: t).reverse := by
    simp
  rw [hrev, List.dropWhile_cons, hsp]
  simp only [if_true]
  have hdw : (c :: t).reverse.dropWhile goIsSpace = (c :: t).reverse := by
    cases hr : (c :: t).reverse with
    | nil => simp
    | cons d s =>
      have hd : (c :: t).getLast? = some d := by
        rw [← List.head?_reverse, hr, List.head?_cons]
      have : goIsSpace d = false := trimSpace_last_nonspace _ hE d hd
      rw [List.dropWhile_cons, this]
      simp
  rw [hdw, List.reverse_reverse]

theorem trim_dzCall (mid : List Char) : trimSpace (dzCall mid) = dzCall mid := by
  refine trim_id_of_ends _ ?_ ?_
  · intro c hc
    rw [dzCall_head] at hc
    injection hc with hc
    subst hc
    decide
  · intro c hc
    rw [dzCall_getLast] at hc
    injection hc with hc
    subst hc
    decide

/-! ### Lemmas about the unwrap loop on wrapped inputs -/

theorem all_ne_nl_of_not_mem (E : List Char) (h : '\n' ∉ E) :
    E.all (· ≠ '\n') = true := by
  rw [List.all_eq_true]
  intro x hx
  simp only [decide_eq_true_eq]
  intro he
  exact h (he ▸ hx)

theorem dzCall_ne_nil (mid : List Char) : dzCall mid ≠ [] := by
  intro h
  have hh := dzCall_head mid
  rw [h] at hh
  simp at hh

theorem dzCall_all_ne_nl (mid : List Char) (h : mid.all (· ≠ '\n') = true) :
    (dzCall mid).all (· ≠ '\n') = true := by
  rw [dzCall]
  simp only [List.all_append, List.all_cons, h, Bool.and_eq_true]
  refine ⟨by decide, by decide, trivial, by decide⟩

theorem wrapK_ne_nil (E : List Char) (k : ℕ) (h : E ≠ []) : wrapK k E ≠ [] := by
  cases k with
  | zero => exact h
  | succ j => exact dzCall_ne_nil _

theorem wrapK_all_ne_nl (E : List Char) (k : ℕ) (h : E.all (· ≠ '\n') = true) :
    (wrapK k E).all (· ≠ '\n') = true := by
  induction k with
  | zero => exact h
  | succ j ih => exact dzCall_all_ne_nl _ ih

theorem wrapK_starts (E : List Char) (k : ℕ) (h : 0 < k) :
    strStarts dzNameL (wrapK k E) = true := by
  cases k with
  | zero => omega
  | succ j =>
    show strStarts dzNameL (dzCall (wrapK j E)) = true
    rw [dzCall]
    exact strStarts_append _ _

theorem trim_wrapK (E : List Char) (k : ℕ) (hE : trimSpace E = E) :
    trimSpace (wrapK k E) = wrapK k E := by
  cases k with
  | zero => exact hE
  | succ j => exact trim_dzCall _

theorem wrapK_length_ge (E : List Char) (k : ℕ) : k ≤ (wrapK k E).length := by
  induction k with
  | zero => omega
  | succ j ih =>
    show j + 1 ≤ (dzCall (wrapK j E)).length
    rw [dzCall]
    simp only [List.length_append, List.length_cons]
    omega

theorem capture_none_of_not_starts (s : List Char) (h : strStarts dzNameL s = false) :
    dzAnchoredCapture s = none := by
  simp [dzAnchoredCapture, h]

theorem eiqLoop_wrapK (E : List Char) (hE : trimSpace E = E) (hne : E ≠ [])
    (hnl : E.all (· ≠ '\n') = true) (hpre : strStarts dzNameL E = false) :
    ∀ k fuel n, k ≤ fuel → eiqLoop fuel (wrapK k E) n = (E, n + k) := by
  intro k
  induction k with
  | zero =>
    intro fuel n _
    cases fuel with
    | zero => simp [eiqLoop, wrapK]
    | succ f =>
      have hcap : dzAnchoredCapture E = none := capture_none_of_not_starts E hpre
      simp [eiqLoop, wrapK, hcap]
  | succ j ih =>
    intro fuel n hk
    cases fuel with
    | zero => omega
    | succ f =>
      have hcap : dzAnchoredCapture (wrapK (j + 1) E) = some (wrapK j E) :=
        capture_dzCall _ (wrapK_ne_nil E j hne) (wrapK_all_ne_nl E j hnl)
      have htrim : trimSpace (wrapK j E) = wrapK j E := trim_wrapK E j hE
      cases j with
      | zero =>
        simp only [eiqLoop, hcap, htrim]
        show (if strStarts dzNameL (wrapK 0 E) = true then _ else _) = _
        rw [show wrapK 0 E = E from rfl, hpre]
        simp
      | succ i =>
        have hst : strStarts dzNameL (wrapK (i + 1) E) = true :=
          wrapK_starts E (i + 1) (by omega)
        simp only [eiqLoop, hcap, htrim, hst, if_true]
        rw [ih f (n + 1) (by omega)]
        congr 1
        omega

/-- C1: as stated the nesting-count claim fails at the empty base
expression: the empty string is trimmed and does not begin with the
wrapper name, yet unwrapping one wrapper layer around it yields the whole
call with a depth of 0, because the anchored pattern requires a nonempty
argument. -/
theorem c1_counterexample :
    trimSpace ([] : List Char) = [] ∧ strStarts dzNameL ([] : List Char) = false ∧
    extractInnerQuery (wrapK 1 ([] : List Char)) ≠ (([] : List Char), 1) := by
  refine ⟨by decide, by decide, by decide⟩

/-- C1 (amended): for a trimmed, nonempty, newline-free base expression E
that does not begin with the wrapper name, unwrapping k wrapper layers
around E yields (E, k), and the whitespace-padded single wrap unwraps to
the same clean text (E, 1). -/
theorem c1_wrap_unwrap (E : List Char) (k : ℕ) (hE : trimSpace E = E) (hne : E ≠ [])
    (hnl : '\n' ∉ E) (hpre : strStarts dzNameL E = false) :
    extractInnerQuery (wrapK k E) = (E, k) ∧ extractInnerQuery (wrapDzSp E) = (E, 1) := by
  have hall : E.all (· ≠ '\n') = true := all_ne_nl_of_not_mem E hnl
  constructor
  · rw [extractInnerQuery, trim_wrapK E k hE]
    have hlen : k ≤ (wrapK k E).length + 1 := by
      have := wrapK_length_ge E k
      omega
    have h := eiqLoop_wrapK E hE hne hall hpre k ((wrapK k E).length + 1) 0 hlen
    simpa using h
  · rw [extractInnerQuery]
    have htr : trimSpace (wrapDzSp E) = wrapDzSp E := trim_dzCall _
    rw [htr]
    have hcap : dzAnchoredCapture (wrapDzSp E) = some (' ' :: (E ++ [' '])) := by
      refine capture_dzCall _ (by simp) ?_
      simp only [List.all_cons, List.all_append, Bool.and_eq_true, hall]
      refine ⟨by decide, trivial, by decide⟩
    simp only [eiqLoop, hcap]
    rw [trim_spaced E hE hne]
    simp [hpre]

/-- Witness for C1 (amended) at E = avg:a and k = 2. -/
theorem c1_witness :
    (trimSpace (("avg:a").toList) = ("avg:a").toList ∧ (("avg:a").toList) ≠ [] ∧
     '\n' ∉ (("avg:a").toList) ∧ strStarts dzNameL (("avg:a").toList) = false) ∧
    (extractInnerQuery (wrapK 2 (("avg:a").toList)) = ((("avg:a").toList), 2) ∧
     extractInnerQuery (wrapDzSp (("avg:a").toList)) = ((("avg:a").toList), 1)) :=
  ⟨⟨by decide, by decide, by decide, by decide⟩,
   c1_wrap_unwrap (("avg:a").toList) 2 (by decide) (by decide) (by decide) (by decide)⟩

/-- C6: as stated the idempotence claim fails on inputs with surrounding
whitespace: an input that never matches the anchored wrapper pattern is
returned trimmed, not verbatim. -/
theorem c6_counterexample :
    dzAnchoredCapture ((" x").toList) = none ∧
    dzAnchoredCapture (trimSpace ((" x").toList)) = none ∧
    extractInnerQuery ((" x").toList) ≠ (((" x").toList), 0) := by
  refine ⟨by decide, by decide, by decide⟩

/-- C6 (amended): when the trimmed input never matches the anchored
wrapper pattern, extractInnerQuery returns the trimmed input with depth 0;
in particular it returns the input itself exactly when the input carries
no leading or trailing whitespace. -/
theorem c6_unmatched_returns_trimmed (q : List Char)
    (h : dzAnchoredCapture (trimSpace q) = none) :
    extractInnerQuery q = (trimSpace q, 0) := by
  rw [extractInnerQuery]
  simp [eiqLoop, h]

/-- Witness for C6 (amended) at the input abc. -/
theorem c6_witness :
    dzAnchoredCapture (trimSpace (("abc").toList)) = none ∧
    extractInnerQuery (("abc").toList) = (trimSpace (("abc").toList), 0) :=
  ⟨by decide, c6_unmatched_returns_trimmed (("abc").toList) (by decide)⟩

/-! ### Characterization of the operator scan -/

theorem drop_cons_facts (q : List Char) : ∀ (i : ℕ) (c : Char) (rest : List Char),
    q.drop i = c :: rest → q.get? i = some c ∧ q.drop (i + 1) = rest := by
  induction q with
  | nil => intro i c rest h; simp at h
  | cons x xs ih =>
    intro i c rest h
    cases i with
    | zero =>
      simp only [List.drop_zero] at h
      injection h with h1 h2
      subst h1
      subst h2
      exact ⟨rfl, by simp⟩
    | succ n =>
      rw [List.drop_succ_cons] at h
      obtain ⟨h1, h2⟩ := ih n c rest h
      refine ⟨by simpa using h1, ?_⟩
      rw [List.drop_succ_cons]
      exact h2

theorem getD_of_get? (q : List Char) (i : ℕ) (c : Char) (h : q.get? i = some c) :
    q.getD i ' ' = c := by
  have h2 : q[i]? = some c := by rw [← List.get?_eq_getElem?]; exact h
  simp [List.getD, h2]

theorem lt_length_of_get? (q : List Char) (i : ℕ) (c : Char) (h : q.get? i = some c) :
    i < q.length := by
  by_contra hb
  rw [List.get?_eq_none.mpr (by omega)] at h
  exact Option.noConfusion h

theorem braceDepth_zero (q : List Char) : braceDepth q 0 = 0 := by
  simp [braceDepth]

theorem take_succ_of_get? (q : List Char) (i : ℕ) (c : Char) (h : q.get? i = some c) :
    q.take (i + 1) = q.take i ++ [c] := by
  have h2 : q[i]? = some c := by rw [← List.get?_eq_getElem?]; exact h
  rw [List.take_succ, h2]
  rfl

theorem braceDepth_succ_open (q : List Char) (i : ℕ) (h : q.get? i = some '{') :
    braceDepth q (i + 1) = braceDepth q i + 1 := by
  rw [braceDepth, braceDepth, take_succ_of_get? q i _ h, List.count_append,
    List.count_append]
  have e1 : (['{'] : List Char).count '{' = 1 := by decide
  have e2 : (['{'] : List Char).count '}' = 0 := by decide
  rw [e1, e2]
  push_cast
  ring

theorem braceDepth_succ_close (q : List Char) (i : ℕ) (h : q.get? i = some '}') :
    braceDepth q (i + 1) = braceDepth q i - 1 := by
  rw [braceDepth, braceDepth, take_succ_of_get? q i _ h, List.count_append,
    List.count_append]
  have e1 : (['}'] : List Char).count '{' = 0 := by decide
  have e2 : (['}'] : List Char).count '}' = 1 := by decide
  rw [e1, e2]
  push_cast
  ring

theorem braceDepth_succ_other (q : List Char) (i : ℕ) (c : Char) (h : q.get? i = some c)
    (h1 : c ≠ '{') (h2 : c ≠ '}') : braceDepth q (i + 1) = braceDepth q i := by
  rw [braceDepth, braceDepth, take_succ_of_get? q i _ h, List.count_append,
    List.count_append]
  have e1 : ([c] : List Char).count '{' = 0 := by
    rw [List.count_singleton', if_neg h1]
  have e2 : ([c] : List Char).count '}' = 0 := by
    rw [List.count_singleton', if_neg h2]
  rw [e1, e2]
  push_cast
  ring

theorem exists_ge_iff (P : ℕ → Prop) (i : ℕ) :
    (∃ j, i ≤ j ∧ P j) ↔ P i ∨ (∃ j, i + 1 ≤ j ∧ P j) := by
  constructor
  · rintro ⟨j, hij, hP⟩
    rcases Nat.eq_or_lt_of_le hij with h | h
    · left
      rwa [h]
    · right
      exact ⟨j, h, hP⟩
  · rintro (hP | ⟨j, hij, hP⟩)
    · exact ⟨i, le_refl i, hP⟩
    · exact ⟨j, by omega, hP⟩

theorem opScanAux_step_op (q rest : List Char) (i : ℕ) (b p : ℤ) (c : Char)
    (h1 : ¬c = '{') (h2 : ¬c = '}') (h3 : ¬c = '(') (h4 : ¬c = ')')
    (h5 : isOpChar c = true) :
    opScanAux q (c :: rest) i b p =
      if b = 0 ∧ 0 < i ∧ i + 1 < q.length then true
      else opScanAux q rest (i + 1) b p := by
  have hops : c = '+' ∨ c = '-' ∨ c = '*' ∨ c = '/' := by
    simp only [isOpChar, Bool.or_eq_true, decide_eq_true_eq] at h5
    tauto
  simp only [opScanAux, h1, h2, h3, h4, h5, if_false, if_true, ite_false, ite_true]
  by_cases h6 : b = 0 ∧ 0 < i ∧ i + 1 < q.length
  · rw [if_pos h6, if_pos h6, if_pos (Or.inr hops)]
  · rw [if_neg h6, if_neg h6]

theorem opScanAux_step_other (q rest : List Char) (i : ℕ) (b p : ℤ) (c : Char)
    (h1 : ¬c = '{') (h2 : ¬c = '}') (h3 : ¬c = '(') (h4 : ¬c = ')')
    (h5 : isOpChar c = false) :
    opScanAux q (c :: rest) i b p = opScanAux q rest (i + 1) b p := by
  simp only [opScanAux, h1, h2, h3, h4, h5, Bool.false_eq_true, if_false, ite_false]

theorem opScanAux_iff (q : List Char) : ∀ (l : List Char) (i : ℕ) (b p : ℤ),
    q.drop i = l → braceDepth q i = b →
    (opScanAux q l i b p = true ↔
      ∃ j, i ≤ j ∧ 0 < j ∧ j + 1 < q.length ∧ isOpChar (q.getD j ' ') = true ∧
        braceDepth q j = 0) := by
  intro l
  induction l with
  | nil =>
    intro i b p hdrop hb
    have hlen : q.length ≤ i := by
      have hx := congrArg List.length hdrop
      simp only [List.length_drop, List.length_nil] at hx
      omega
    constructor
    · intro hfalse
      exact absurd hfalse (by simp [opScanAux])
    · rintro ⟨j, hj1, _, hj3, _, _⟩
      omega
  | cons c rest ih =>
    intro i b p hdrop hb
    obtain ⟨hget, hdrop1⟩ := drop_cons_facts q i c rest hdrop
    have hgetD : q.getD i ' ' = c := getD_of_get? q i c hget
    have hshift := exists_ge_iff
      (fun j => 0 < j ∧ j + 1 < q.length ∧ isOpChar (q.getD j ' ') = true ∧
        braceDepth q j = 0) i
    by_cases h1 : c = '{'
    · subst h1
      rw [show opScanAux q ('{' :: rest) i b p = opScanAux q rest (i + 1) (b + 1) p
        from rfl]
      rw [ih (i + 1) (b + 1) p hdrop1 (by rw [braceDepth_succ_open q i hget, hb]),
        hshift]
      have hno : isOpChar (q.getD i ' ') = false := by rw [hgetD]; decide
      simp only [hno, Bool.false_eq_true, false_and, and_false, false_or]
    · by_cases h2 : c = '}'
      · subst h2
        rw [show opScanAux q ('}' :: rest) i b p = opScanAux q rest (i + 1) (b - 1) p
          from rfl]
        rw [ih (i + 1) (b - 1) p hdrop1 (by rw [braceDepth_succ_close q i hget, hb]),
          hshift]
        have hno : isOpChar (q.getD i ' ') = false := by rw [hgetD]; decide
        simp only [hno, Bool.false_eq_true, false_and, and_false, false_or]
      · by_cases h3 : c = '('
        · subst h3
          rw [show opScanAux q ('(' :: rest) i b p = opScanAux q rest (i + 1) b (p + 1)
            from rfl]
          rw [ih (i + 1) b (p + 1) hdrop1
            (by rw [braceDepth_succ_other q i _ hget (by decide) (by decide), hb]),
            hshift]
          have hno : isOpChar (q.getD i ' ') = false := by rw [hgetD]; decide
          simp only [hno, Bool.false_eq_true, false_and, and_false, false_or]
        · by_cases h4 : c = ')'
          · subst h4
            rw [show opScanAux q (')' :: rest) i b p = opScanAux q rest (i + 1) b (p - 1)
              from rfl]
            rw [ih (i + 1) b (p - 1) hdrop1
              (by rw [braceDepth_succ_other q i _ hget (by decide) (by decide), hb]),
              hshift]
            have hno : isOpChar (q.getD i ' ') = false := by rw [hgetD]; decide
            simp only [hno, Bool.false_eq_true, false_and, and_false, false_or]
          · have hb1 : braceDepth q (i + 1) = b := by
              rw [braceDepth_succ_other q i c hget h1 h2, hb]
            by_cases h5 : isOpChar c = true
            · rw [opScanAux_step_op q rest i b p c h1 h2 h3 h4 h5]
              by_cases h6 : b = 0 ∧ 0 < i ∧ i + 1 < q.length
              · rw [if_pos h6]
                simp only [true_iff]
                refine ⟨i, le_refl i, h6.2.1, h6.2.2, ?_, ?_⟩
                · rw [hgetD]
                  exact h5
                · rw [hb]
                  exact h6.1
              · rw [if_neg h6]
                rw [ih (i + 1) b p hdrop1 hb1, hshift]
                have hPi : ¬(0 < i ∧ i + 1 < q.length ∧ isOpChar (q.getD i ' ') = true ∧
                    braceDepth q i = 0) := by
                  rintro ⟨ha, hbn, _, hd⟩
                  rw [hd] at hb
                  exact h6 ⟨hb.symm, ha, hbn⟩
                simp only [hPi, false_or]
            · have h5f : isOpChar c = false := by
                cases hx : isOpChar c with
                | false => rfl
                | true => exact absurd hx h5
              rw [opScanAux_step_other q rest i b p c h1 h2 h3 h4 h5f]
              rw [ih (i + 1) b p hdrop1 hb1, hshift]
              have hno : isOpChar (q.getD i ' ') = false := by
                rw [hgetD]
                exact h5f
              simp only [hno, Bool.false_eq_true, false_and, and_false, false_or]

theorem opScanB_iff (q : List Char) :
    opScanB q = true ↔
      ∃ j, 0 < j ∧ j + 1 < q.length ∧ isOpChar (q.getD j ' ') = true ∧
        braceDepth q j = 0 := by
  rw [opScanB, opScanAux_iff q q 0 0 0 (by simp) (braceDepth_zero q)]
  constructor
  · rintro ⟨j, _, h⟩
    exact ⟨j, h⟩
  · rintro ⟨j, h⟩
    exact ⟨j, Nat.zero_le j, h⟩

/-- C3: as stated the operator rule fails at boundary positions: in the
query a+ the plus sign sits at brace depth zero, yet the classifier
returns simple because the scan only fires at interior indices. -/
theorem c3_counterexample :
    isOpChar ((("a+").toList).getD 1 ' ') = true ∧
    braceDepth (("a+").toList) 1 = 0 ∧
    isComplexQuery (("a+").toList) = false := by
  refine ⟨by decide, by decide, by decide⟩

/-- C3 (amended): the classifier returns composite exactly when some
arithmetic operator character occurs at an interior index (neither first
nor last) with brace depth zero, or the total aggregation-pattern count
exceeds one; in particular operators inside brace blocks never by
themselves make a query composite. -/
theorem c3_operator_rule (q : List Char) :
    isComplexQuery q = true ↔
      ((∃ j, 0 < j ∧ j + 1 < q.length ∧ isOpChar (q.getD j ' ') = true ∧
          braceDepth q j = 0) ∨
        1 < prefixTotal q) := by
  rw [isComplexQuery, Bool.or_eq_true, opScanB_iff, decide_eq_true_eq]

/-- C4: more than one aggregation-pattern occurrence forces composite, and
a single occurrence with no zero-depth operator anywhere leaves the query
simple, whatever the wrapper nesting. -/
theorem c4_prefix_rules (q : List Char) :
    (1 < prefixTotal q → isComplexQuery q = true) ∧
    (prefixTotal q = 1 →
      (∀ i, i < q.length → isOpChar (q.getD i ' ') = true → braceDepth q i ≠ 0) →
      isComplexQuery q = false) := by
  constructor
  · intro h
    simp [isComplexQuery, h]
  · intro h1 h2
    rw [isComplexQuery]
    have hop : opScanB q = false := by
      cases hx : opScanB q with
      | false => rfl
      | true =>
        obtain ⟨j, hj0, hjl, hjop, hjd⟩ := (opScanB_iff q).mp hx
        exact absurd hjd (h2 j (by omega) hjop)
    rw [hop, h1]
    simp

/-- Witness for C4 at a two-pattern composite and a wrapped single-pattern
simple query. -/
theorem c4_witness :
    (1 < prefixTotal (("avg:a + sum:b").toList) ∧
     isComplexQuery (("avg:a + sum:b").toList) = true) ∧
    (prefixTotal (("default_zero(avg:a{x})").toList) = 1 ∧
     isComplexQuery (("default_zero(avg:a{x})").toList) = false) :=
  ⟨⟨by decide, (c4_prefix_rules (("avg:a + sum:b").toList)).1 (by decide)⟩,
   ⟨by decide, (c4_prefix_rules (("default_zero(avg:a{x})").toList)).2 (by decide)
      (by decide)⟩⟩

/-! ### The simple path of parseQuery -/

/-- C5: a query classified simple yields exactly one MetricInfo, spanning
the whole query, whose original text is the query itself. -/
theorem c5_simple_single_span (q : List Char) (h : isComplexQuery q = false) :
    (parseQuery q).Metrics.length = 1 ∧
    ∀ m ∈ (parseQuery q).Metrics,
      m.StartPos = 0 ∧ m.EndPos = q.length ∧ m.OriginalMetric = q := by
  rw [parseQuery]
  simp only [h, Bool.false_eq_true, if_false]
  by_cases hd : dzOpenDetect (trimSpace q) = true
  · simp only [hd, if_true]
    refine ⟨rfl, ?_⟩
    intro m hm
    simp only [List.mem_singleton] at hm
    subst hm
    exact ⟨rfl, rfl, rfl⟩
  · have hd2 : dzOpenDetect (trimSpace q) = false := by
      cases hx : dzOpenDetect (trimSpace q) with
      | false => rfl
      | true => exact absurd hx hd
    simp only [hd2, Bool.false_eq_true, if_false]
    refine ⟨rfl, ?_⟩
    intro m hm
    simp only [List.mem_singleton] at hm
    subst hm
    exact ⟨rfl, rfl, rfl⟩

/-- Witness for C5 at a simple query. -/
theorem c5_witness :
    isComplexQuery (("hello").toList) = false ∧
    ((parseQuery (("hello").toList)).Metrics.length = 1 ∧
     ∀ m ∈ (parseQuery (("hello").toList)).Metrics,
       m.StartPos = 0 ∧ m.EndPos = (("hello").toList).length ∧
       m.OriginalMetric = ("hello").toList) :=
  ⟨by decide, c5_simple_single_span (("hello").toList) (by decide)⟩

/-- C7: as stated the legacy-field claim fails for a simple query without
a wrapper: the metric records the query as its clean text, while the
legacy InnerQuery field keeps its zero value, the empty string. -/
theorem c7_counterexample :
    (parseQuery (("avg:a").toList)).Metrics =
      [{ OriginalMetric := ("avg:a").toList, CleanMetric := ("avg:a").toList,
         HasDefaultZero := false, DefaultZeroNesting := 0, StartPos := 0, EndPos := 5 }] ∧
    (parseQuery (("avg:a").toList)).InnerQuery = [] ∧
    (("avg:a").toList) ≠ ([] : List Char) := by
  refine ⟨by decide, by decide, by decide⟩

/-- C7 (amended): the legacy wrapper flag and nesting always equal those
of the first metric; the legacy inner-query field equals the first
metric's clean text on the complex path and on the simple wrapped path,
while on the simple path without a detected wrapper it keeps its zero
value, the empty string, and the first metric's clean text is the whole
query. -/
theorem c7_legacy_fields (q : List Char) (m : MetricInfo) (ms : List MetricInfo)
    (h : (parseQuery q).Metrics = m :: ms) :
    (parseQuery q).HasDefaultZero = m.HasDefaultZero ∧
    (parseQuery q).DefaultZeroNesting = m.DefaultZeroNesting ∧
    (isComplexQuery q = true ∨ dzOpenDetect (trimSpace q) = true →
      (parseQuery q).InnerQuery = m.CleanMetric) ∧
    (isComplexQuery q = false → dzOpenDetect (trimSpace q) = false →
      (parseQuery q).HasDefaultZero = false ∧ (parseQuery q).InnerQuery = [] ∧
      m.CleanMetric = q) := by
  by_cases hc : isComplexQuery q = true
  · rw [parseQuery] at h ⊢
    simp only [hc, if_true] at h ⊢
    cases hall : extractAllMetrics q with
    | nil =>
      rw [hall] at h
      have h2 : ([] : List MetricInfo) = m :: ms := h
      exact absurd h2 (by simp)
    | cons m0 tl =>
      rw [hall] at h
      have h2 : m0 :: tl = m :: ms := h
      injection h2 with hm hms
      subst hm
      refine ⟨rfl, rfl, fun _ => rfl, fun hcf _ => ?_⟩
      exact absurd hcf (by decide)
  · have hc2 : isComplexQuery q = false := by
      cases hx : isComplexQuery q with
      | false => rfl
      | true => exact absurd hx hc
    rw [parseQuery] at h ⊢
    simp only [hc2, Bool.false_eq_true, if_false] at h ⊢
    by_cases hd : dzOpenDetect (trimSpace q) = true
    · simp only [hd, if_true] at h ⊢
      injection h with hm hms
      subst hm
      refine ⟨rfl, rfl, fun _ => rfl, fun _ hdf => ?_⟩
      exact absurd hdf (by decide)
    · have hd2 : dzOpenDetect (trimSpace q) = false := by
        cases hx : dzOpenDetect (trimSpace q) with
        | false => rfl
        | true => exact absurd hx hd
      simp only [hd2, Bool.false_eq_true, if_false] at h ⊢
      injection h with hm hms
      subst hm
      refine ⟨?_, ?_, fun hor => ?_, fun _ _ => ⟨?_, ?_, ?_⟩⟩ <;>
        first
          | rfl
          | trivial

/-- Witness for C7 (amended) at a composite query whose first metric is a
bare span: the complex-path equality of the legacy inner-query field is
exercised concretely. -/
theorem c7_witness :
    (parseQuery (("avg:a + sum:b").toList)).Metrics =
      ({ OriginalMetric := ("avg:a").toList, CleanMetric := ("avg:a").toList,
         HasDefaultZero := false, DefaultZeroNesting := 0, StartPos := 0,
         EndPos := 5 } : MetricInfo) ::
      [({ OriginalMetric := ("sum:b").toList, CleanMetric := ("sum:b").toList,
          HasDefaultZero := false, DefaultZeroNesting := 0, StartPos := 8,
          EndPos := 13 } : MetricInfo)] ∧
    ((parseQuery (("avg:a + sum:b").toList)).HasDefaultZero =
       ({ OriginalMetric := ("avg:a").toList, CleanMetric := ("avg:a").toList,
          HasDefaultZero := false, DefaultZeroNesting := 0, StartPos := 0,
          EndPos := 5 } : MetricInfo).HasDefaultZero ∧
     (parseQuery (("avg:a + sum:b").toList)).DefaultZeroNesting =
       ({ OriginalMetric := ("avg:a").toList, CleanMetric := ("avg:a").toList,
          HasDefaultZero := false, DefaultZeroNesting := 0, StartPos := 0,
          EndPos := 5 } : MetricInfo).DefaultZeroNesting ∧
     (isComplexQuery (("avg:a + sum:b").toList) = true ∨
        dzOpenDetect (trimSpace (("avg:a + sum:b").toList)) = true →
       (parseQuery (("avg:a + sum:b").toList)).InnerQuery =
         ({ OriginalMetric := ("avg:a").toList, CleanMetric := ("avg:a").toList,
            HasDefaultZero := false, DefaultZeroNesting := 0, StartPos := 0,
            EndPos := 5 } : MetricInfo).CleanMetric) ∧
     (isComplexQuery (("avg:a + sum:b").toList) = false →
       dzOpenDetect (trimSpace (("avg:a + sum:b").toList)) = false →
       (parseQuery (("avg:a + sum:b").toList)).HasDefaultZero = false ∧
       (parseQuery (("avg:a + sum:b").toList)).InnerQuery = [] ∧
       ({ OriginalMetric := ("avg:a").toList, CleanMetric := ("avg:a").toList,
          HasDefaultZero := false, DefaultZeroNesting := 0, StartPos := 0,
          EndPos := 5 } : MetricInfo).CleanMetric = ("avg:a + sum:b").toList)) :=
  ⟨by decide,
   c7_legacy_fields (("avg:a + sum:b").toList)
     ({ OriginalMetric := ("avg:a").toList, CleanMetric := ("avg:a").toList,
        HasDefaultZero := false, DefaultZeroNesting := 0, StartPos := 0,
        EndPos := 5 } : MetricInfo)
     [({ OriginalMetric := ("sum:b").toList, CleanMetric := ("sum:b").toList,
         HasDefaultZero := false, DefaultZeroNesting := 0, StartPos := 8,
         EndPos := 13 } : MetricInfo)] (by decide)⟩

/-- C9: as stated the no-prefix fallback fails on queries with a bare
arithmetic operator: a+b has no aggregation pattern occurrence, yet the
operator scan classifies it composite and the extractor finds no metric
at all. -/
theorem c9_counterexample :
    prefixTotal (("a+b").toList) = 0 ∧
    (parseQuery (("a+b").toList)).IsComplexQuery = true ∧
    (parseQuery (("a+b").toList)).Metrics = [] := by
  refine ⟨by decide, by decide, by decide⟩

/-- C9 (amended): a query with no aggregation pattern occurrence, no
operator-scan hit and no leading wrapper token is classified simple and
yields a single whole-query MetricInfo whose clean text is the raw input;
this includes the empty string. -/
theorem c9_no_prefix_path (q : List Char) (h1 : prefixTotal q = 0)
    (h2 : opScanB q = false) (h3 : dzOpenDetect (trimSpace q) = false) :
    (parseQuery q).IsComplexQuery = false ∧
    (parseQuery q).Metrics =
      [{ OriginalMetric := q, CleanMetric := q, HasDefaultZero := false,
         DefaultZeroNesting := 0, StartPos := 0, EndPos := q.length }] := by
  have hc : isComplexQuery q = false := by
    rw [isComplexQuery, h2, h1]
    simp
  rw [parseQuery]
  simp only [hc, Bool.false_eq_true, if_false, h3]
  refine ⟨?_, ?_⟩ <;> first | rfl | trivial

/-- Witness for C9 (amended) at the empty query. -/
theorem c9_witness :
    (prefixTotal ([] : List Char) = 0 ∧ opScanB ([] : List Char) = false ∧
     dzOpenDetect (trimSpace ([] : List Char)) = false) ∧
    ((parseQuery ([] : List Char)).IsComplexQuery = false ∧
     (parseQuery ([] : List Char)).Metrics =
       [{ OriginalMetric := [], CleanMetric := [], HasDefaultZero := false,
          DefaultZeroNesting := 0, StartPos := 0, EndPos := ([] : List Char).length }]) :=
  ⟨⟨by decide, by decide, by decide⟩,
   c9_no_prefix_path [] (by decide) (by decide) (by decide)⟩

/-! ### Lemmas about the extractor scanners -/

theorem findCloseAux_gt : ∀ (l : List Char) (i : ℕ) (cnt : ℤ) (e : ℕ),
    findCloseAux i cnt l = some e → i < e := by
  intro l
  induction l with
  | nil => intro i cnt e h; exact Option.noConfusion h
  | cons c rest ih =>
    intro i cnt e h
    rw [findCloseAux] at h
    by_cases h1 : c = '('
    · rw [if_pos h1] at h
      have := ih (i + 1) (cnt + 1) e h
      omega
    · rw [if_neg h1] at h
      by_cases h2 : c = ')'
      · rw [if_pos h2] at h
        by_cases h3 : cnt - 1 = 0
        · rw [if_pos h3] at h
          injection h with he
          omega
        · rw [if_neg h3] at h
          have := ih (i + 1) (cnt - 1) e h
          omega
      · rw [if_neg h2] at h
        have := ih (i + 1) cnt e h
        omega

theorem findClose_gt (q : List Char) (openPos e : ℕ) (h : findClose q openPos = some e) :
    openPos < e :=
  findCloseAux_gt (q.drop openPos) openPos 0 e h

theorem dzMatchAt_lt (q : List Char) (pos e : ℕ) (h : dzMatchAt q pos = some e) :
    pos < e := by
  rw [dzMatchAt] at h
  by_cases hs : strStarts dzNameL (q.drop pos) = true
  · rw [if_pos hs] at h
    split at h
    · injection h with he
      omega
    · exact Option.noConfusion h
  · rw [if_neg hs] at h
    exact Option.noConfusion h

theorem dzFindAllAux_lb (q : List Char) : ∀ (fuel pos s me : ℕ),
    (s, me) ∈ dzFindAllAux q fuel pos → pos ≤ s ∧ s < me := by
  intro fuel
  induction fuel with
  | zero => intro pos s me h; exact absurd h (List.not_mem_nil _)
  | succ f ih =>
    intro pos s me h
    rw [dzFindAllAux] at h
    by_cases hl : q.length ≤ pos
    · rw [if_pos hl] at h
      exact absurd h (List.not_mem_nil _)
    · rw [if_neg hl] at h
      cases hm : dzMatchAt q pos with
      | none =>
        rw [hm] at h
        have := ih (pos + 1) s me h
        exact ⟨by omega, this.2⟩
      | some e =>
        rw [hm] at h
        rcases List.mem_cons.mp h with he | ht
        · injection he with he1 he2
          subst he1
          subst he2
          exact ⟨le_refl _, dzMatchAt_lt q s me hm⟩
        · have h2 := ih e s me ht
          have h3 := dzMatchAt_lt q pos e hm
          exact ⟨by omega, h2.2⟩

theorem dzFindAllAux_sorted (q : List Char) : ∀ (fuel pos : ℕ),
    (dzFindAllAux q fuel pos).Pairwise (fun a b => a.1 < b.1) := by
  intro fuel
  induction fuel with
  | zero => intro pos; exact List.Pairwise.nil
  | succ f ih =>
    intro pos
    rw [dzFindAllAux]
    by_cases hl : q.length ≤ pos
    · rw [if_pos hl]
      exact List.Pairwise.nil
    · rw [if_neg hl]
      cases hm : dzMatchAt q pos with
      | none => exact ih (pos + 1)
      | some e =>
        refine List.Pairwise.cons ?_ (ih e)
        rintro ⟨s, me⟩ hmem
        have h1 := dzFindAllAux_lb q f e s me hmem
        have h2 := dzMatchAt_lt q pos e hm
        simp only []
        omega

theorem dzFindAll_sorted (q : List Char) :
    (dzFindAll q).Pairwise (fun a b => a.1 < b.1) :=
  dzFindAllAux_sorted q (q.length + 1) 0

theorem same_start_unique : ∀ (l : List (ℕ × ℕ)),
    l.Pairwise (fun a b => a.1 < b.1) →
    ∀ p x y, (p, x) ∈ l → (p, y) ∈ l → x = y := by
  intro l
  induction l with
  | nil => intro _ p x y hx _; exact absurd hx (List.not_mem_nil _)
  | cons hd tl ih =>
    intro hpw p x y hx hy
    rcases List.pairwise_cons.mp hpw with ⟨hrel, hpwt⟩
    rcases List.mem_cons.mp hx with hx1 | hx2 <;> rcases List.mem_cons.mp hy with hy1 | hy2
    · rw [← hx1] at hy1
      injection hy1 with _ h2
      exact h2.symm
    · exfalso
      have := hrel (p, y) hy2
      rw [← hx1] at this
      simp at this
    · exfalso
      have := hrel (p, x) hx2
      rw [← hy1] at this
      simp at this
    · exact ih hpwt p x y hx2 hy2

theorem bareMatchAt_lt (q : List Char) (pos e : ℕ) (h : bareMatchAt q pos = some e) :
    pos < e := by
  rw [bareMatchAt] at h
  cases ha : aggLenAt (q.drop pos) with
  | none => rw [ha] at h; exact Option.noConfusion h
  | some plen =>
    rw [ha] at h
    dsimp only at h
    by_cases hb : ((q.drop (pos + plen)).takeWhile isWordDot).length = 0
    · rw [if_pos hb] at h
      exact Option.noConfusion h
    · rw [if_neg hb] at h
      injection h with he
      omega

theorem bareFindAllAux_lb (q : List Char) : ∀ (fuel pos s e : ℕ),
    (s, e) ∈ bareFindAllAux q fuel pos → pos ≤ s ∧ s < e := by
  intro fuel
  induction fuel with
  | zero => intro pos s e h; exact absurd h (List.not_mem_nil _)
  | succ f ih =>
    intro pos s e h
    rw [bareFindAllAux] at h
    by_cases hl : q.length ≤ pos
    · rw [if_pos hl] at h
      exact absurd h (List.not_mem_nil _)
    · rw [if_neg hl] at h
      cases hm : bareMatchAt q pos with
      | none =>
        rw [hm] at h
        have := ih (pos + 1) s e h
        exact ⟨by omega, this.2⟩
      | some e0 =>
        rw [hm] at h
        rcases List.mem_cons.mp h with he | ht
        · injection he with he1 he2
          subst he1
          subst he2
          exact ⟨le_refl _, bareMatchAt_lt q s e hm⟩
        · have h2 := ih e0 s e ht
          have h3 := bareMatchAt_lt q pos e0 hm
          exact ⟨by omega, h2.2⟩

theorem bareFindAllAux_gap (q : List Char) : ∀ (fuel pos : ℕ),
    (bareFindAllAux q fuel pos).Pairwise (fun a b => a.2 ≤ b.1) := by
  intro fuel
  induction fuel with
  | zero => intro pos; exact List.Pairwise.nil
  | succ f ih =>
    intro pos
    rw [bareFindAllAux]
    by_cases hl : q.length ≤ pos
    · rw [if_pos hl]
      exact List.Pairwise.nil
    · rw [if_neg hl]
      cases hm : bareMatchAt q pos with
      | none => exact ih (pos + 1)
      | some e =>
        refine List.Pairwise.cons ?_ (ih e)
        rintro ⟨s, me⟩ hmem
        have h1 := bareFindAllAux_lb q f e s me hmem
        simp only []
        omega

theorem bareFindAll_gap (q : List Char) :
    (bareFindAll q).Pairwise (fun a b => a.2 ≤ b.1) :=
  bareFindAllAux_gap q (q.length + 1) 0

theorem mem_range'_iff (s n m : ℕ) : m ∈ List.range' s n ↔ s ≤ m ∧ m < s + n := by
  rw [List.mem_range']
  constructor
  · rintro ⟨i, hi, rfl⟩
    omega
  · rintro ⟨h1, h2⟩
    refine ⟨m - s, by omega, by omega⟩

theorem any_false_mem (l : List ℕ) (f : ℕ → Bool) (h : l.any f = false) :
    ∀ y ∈ l, f y = false := by
  intro y hy
  cases hx : f y with
  | false => rfl
  | true =>
    have hc : l.any f = true := List.any_eq_true.mpr ⟨y, hy, hx⟩
    rw [h] at hc
    exact Bool.noConfusion hc

theorem markRange_eq_false (covered : ℕ → Bool) (s e x : ℕ)
    (h : markRange covered s e x = false) :
    covered x = false ∧ ¬(s ≤ x ∧ x < e) := by
  rw [markRange, Bool.or_eq_false_iff] at h
  refine ⟨h.1, ?_⟩
  rintro ⟨h1, h2⟩
  have := h.2
  rw [decide_eq_true h1, decide_eq_true h2] at this
  exact Bool.noConfusion this

theorem coveredOf_false (ms : List MetricInfo) (x : ℕ) (h : coveredOf ms x = false) :
    ∀ m ∈ ms, ¬(m.StartPos ≤ x ∧ x < m.EndPos) := by
  rintro m hm ⟨h1, h2⟩
  have hc : coveredOf ms x = true := by
    simp only [coveredOf, List.any_eq_true]
    exact ⟨m, hm, by rw [decide_eq_true h1, decide_eq_true h2]; rfl⟩
  rw [h] at hc
  exact Bool.noConfusion hc

theorem dzLoop_mem (q : List Char) : ∀ (mlist : List (ℕ × ℕ)) (covered : ℕ → Bool)
    (m : MetricInfo), m ∈ dzLoop q mlist covered →
    ∃ s me e, (s, me) ∈ mlist ∧ covered s = false ∧ findClose q (me - 1) = some e ∧
      m = mkDzMetric q s e := by
  intro mlist
  induction mlist with
  | nil => intro covered m hm; exact absurd hm (List.not_mem_nil _)
  | cons hd rest ih =>
    rcases hd with ⟨s0, me0⟩
    intro covered m hm
    rw [dzLoop] at hm
    by_cases hcov : covered s0 = true
    · rw [if_pos hcov] at hm
      obtain ⟨s, me, e, hmem, hc, hf, hEq⟩ := ih covered m hm
      exact ⟨s, me, e, List.mem_cons_of_mem _ hmem, hc, hf, hEq⟩
    · have hcov2 : covered s0 = false := by
        cases hx : covered s0 with
        | false => rfl
        | true => exact absurd hx hcov
      rw [hcov2] at hm
      simp only [Bool.false_eq_true, if_false] at hm
      cases hf : findClose q (me0 - 1) with
      | none =>
        rw [hf] at hm
        obtain ⟨s, me, e, hmem, hc, hf2, hEq⟩ := ih covered m hm
        exact ⟨s, me, e, List.mem_cons_of_mem _ hmem, hc, hf2, hEq⟩
      | some e0 =>
        rw [hf] at hm
        rcases List.mem_cons.mp hm with he | ht
        · exact ⟨s0, me0, e0, List.mem_cons_self _ _, hcov2, hf, he⟩
        · obtain ⟨s, me, e, hmem, hc, hf2, hEq⟩ :=
            ih (markRange covered s0 e0) m ht
          have hc2 := (markRange_eq_false covered s0 e0 s hc).1
          exact ⟨s, me, e, List.mem_cons_of_mem _ hmem, hc2, hf2, hEq⟩

theorem dzLoop_pairwise (q : List Char) : ∀ (mlist : List (ℕ × ℕ)) (covered : ℕ → Bool),
    mlist.Pairwise (fun a b => a.1 ≤ b.1) →
    (dzLoop q mlist covered).Pairwise (fun a b => a.EndPos ≤ b.StartPos) := by
  intro mlist
  induction mlist with
  | nil => intro covered _; exact List.Pairwise.nil
  | cons hd rest ih =>
    rcases hd with ⟨s0, me0⟩
    intro covered hpw
    rcases List.pairwise_cons.mp hpw with ⟨hrel, hpwt⟩
    rw [dzLoop]
    by_cases hcov : covered s0 = true
    · rw [if_pos hcov]
      exact ih covered hpwt
    · have hcov2 : covered s0 = false := by
        cases hx : covered s0 with
        | false => rfl
        | true => exact absurd hx hcov
      rw [hcov2]
      simp only [Bool.false_eq_true, if_false]
      cases hf : findClose q (me0 - 1) with
      | none => exact ih covered hpwt
      | some e0 =>
        refine List.Pairwise.cons ?_ (ih (markRange covered s0 e0) hpwt)
        intro m2 hm2
        obtain ⟨s, me, e, hmem, hc, _, rfl⟩ :=
          dzLoop_mem q rest (markRange covered s0 e0) m2 hm2
        have hle : s0 ≤ s := hrel (s, me) hmem
        have hnot := (markRange_eq_false covered s0 e0 s hc).2
        show e0 ≤ s
        by_contra hlt
        exact hnot ⟨hle, by omega⟩

theorem remLoop_mem (q : List Char) (covered : ℕ → Bool) :
    ∀ (mlist : List (ℕ × ℕ)) (m : MetricInfo), m ∈ remLoop q covered mlist →
    ∃ s e, (s, e) ∈ mlist ∧ ((List.range' s (e - s)).any covered) = false ∧
      m = mkBareMetric q s e := by
  intro mlist
  induction mlist with
  | nil => intro m hm; exact absurd hm (List.not_mem_nil _)
  | cons hd rest ih =>
    rcases hd with ⟨s0, e0⟩
    intro m hm
    rw [remLoop] at hm
    by_cases hcv : (List.range' s0 (e0 - s0)).any covered = true
    · rw [if_pos hcv] at hm
      obtain ⟨s, e, hmem, hc, hEq⟩ := ih m hm
      exact ⟨s, e, List.mem_cons_of_mem _ hmem, hc, hEq⟩
    · have hcv2 : (List.range' s0 (e0 - s0)).any covered = false := by
        cases hx : (List.range' s0 (e0 - s0)).any covered with
        | false => rfl
        | true => exact absurd hx hcv
      rw [hcv2] at hm
      simp only [Bool.false_eq_true, if_false] at hm
      rcases List.mem_cons.mp hm with he | ht
      · exact ⟨s0, e0, List.mem_cons_self _ _, hcv2, he⟩
      · obtain ⟨s, e, hmem, hc, hEq⟩ := ih m ht
        exact ⟨s, e, List.mem_cons_of_mem _ hmem, hc, hEq⟩

theorem remLoop_pairwise (q : List Char) (covered : ℕ → Bool) :
    ∀ (mlist : List (ℕ × ℕ)),
    mlist.Pairwise (fun a b => a.2 ≤ b.1) →
    (remLoop q covered mlist).Pairwise (fun a b => a.EndPos ≤ b.StartPos) := by
  intro mlist
  induction mlist with
  | nil => intro _; exact List.Pairwise.nil
  | cons hd rest ih =>
    rcases hd with ⟨s0, e0⟩
    intro hpw
    rcases List.pairwise_cons.mp hpw with ⟨hrel, hpwt⟩
    rw [remLoop]
    by_cases hcv : (List.range' s0 (e0 - s0)).any covered = true
    · rw [if_pos hcv]
      exact ih hpwt
    · have hcv2 : (List.range' s0 (e0 - s0)).any covered = false := by
        cases hx : (List.range' s0 (e0 - s0)).any covered with
        | false => rfl
        | true => exact absurd hx hcv
      rw [hcv2]
      simp only [Bool.false_eq_true, if_false]
      refine List.Pairwise.cons ?_ (ih hpwt)
      intro m2 hm2
      obtain ⟨s, e, hmem, _, rfl⟩ := remLoop_mem q covered rest m2 hm2
      exact hrel (s, e) hmem

theorem ico_disjoint_of_le (a b c d : ℕ) (h : b ≤ c) :
    Disjoint (Finset.Ico a b) (Finset.Ico c d) := by
  simp only [Finset.disjoint_left, Finset.mem_Ico]
  rintro x ⟨_, h2⟩ ⟨h3, _⟩
  omega

/-! ### The span-exclusion claims -/

/-- C2: any two MetricInfos produced by the multi-metric extractor occupy
non-overlapping half-open spans: no byte offset of the query belongs to
more than one produced span. -/
theorem c2_span_disjoint (q : List Char) :
    (extractAllMetrics q).Pairwise
      (fun a b => Disjoint (Finset.Ico a.StartPos a.EndPos)
        (Finset.Ico b.StartPos b.EndPos)) := by
  rw [extractAllMetrics, extractRemainingMetrics, extractDefaultZeroMetrics,
    List.pairwise_append]
  refine ⟨?_, ?_, ?_⟩
  · exact (dzLoop_pairwise q (dzFindAll q) (fun _ => false)
      ((dzFindAll_sorted q).imp (fun h => le_of_lt h))).imp
      (fun h => ico_disjoint_of_le _ _ _ _ h)
  · exact (remLoop_pairwise q _ (bareFindAll q) (bareFindAll_gap q)).imp
      (fun h => ico_disjoint_of_le _ _ _ _ h)
  · intro a ha b hb
    obtain ⟨s, e, hmem, hany, rfl⟩ := remLoop_mem q _ (bareFindAll q) b hb
    have hse : s < e := (bareFindAllAux_lb q (q.length + 1) 0 s e hmem).2
    rw [Finset.disjoint_right]
    intro x hxb hxa
    rw [Finset.mem_Ico] at hxa hxb
    have hxr : x ∈ List.range' s (e - s) := by
      rw [mem_range'_iff]
      have h1 : s ≤ x := hxb.1
      have h2 : x < e := hxb.2
      omega
    have hcf := any_false_mem _ _ hany x hxr
    exact coveredOf_false _ x hcf a ha ⟨hxa.1, hxa.2⟩

/-- C8: as stated the unbalanced-wrapper claim fails on the simple path:
for default_zero(avg:a the wrapper call has no matching close, yet
parseQuery still reports the query as wrapped, because the simple path
only tests the opening pattern. -/
theorem c8_counterexample :
    dzMatchAt (("default_zero(avg:a").toList) 0 = some 13 ∧
    findClose (("default_zero(avg:a").toList) 12 = none ∧
    isComplexQuery (("default_zero(avg:a").toList) = false ∧
    (parseQuery (("default_zero(avg:a").toList)).HasDefaultZero = true := by
  refine ⟨by decide, by decide, by decide, by decide⟩

/-- C8 (amended): a wrapper-call occurrence with no matching close is
silently skipped by the wrapped-metric pass, producing no span at its
position and no error; on the simple path, however, wrapper detection
tests only the opening pattern, so the query is still reported as wrapped
even when unbalanced. -/
theorem c8_unbalanced_skip :
    (∀ (q : List Char) (p me : ℕ), (p, me) ∈ dzFindAll q →
      findClose q (me - 1) = none →
      ∀ m ∈ extractDefaultZeroMetrics q, m.StartPos ≠ p) ∧
    (∀ q : List Char, isComplexQuery q = false → dzOpenDetect (trimSpace q) = true →
      (parseQuery q).HasDefaultZero = true) := by
  constructor
  · intro q p me hmem hnone m hm hstart
    obtain ⟨s, me2, e, hmem2, _, hsome, rfl⟩ :=
      dzLoop_mem q (dzFindAll q) (fun _ => false) m hm
    have hsp : s = p := hstart
    subst hsp
    have heq := same_start_unique (dzFindAll q) (dzFindAll_sorted q) s me2 me hmem2 hmem
    rw [heq, hnone] at hsome
    exact Option.noConfusion hsome
  · intro q hc hd
    rw [parseQuery]
    simp only [hc, Bool.false_eq_true, if_false, hd, if_true]

/-- Witness for C8 (amended) at the unbalanced query default_zero(avg:a. -/
theorem c8_witness :
    ((0, 13) ∈ dzFindAll (("default_zero(avg:a").toList) ∧
     findClose (("default_zero(avg:a").toList) 12 = none ∧
     (∀ m ∈ extractDefaultZeroMetrics (("default_zero(avg:a").toList),
       m.StartPos ≠ 0)) ∧
    (isComplexQuery (("default_zero(avg:a").toList) = false ∧
     dzOpenDetect (trimSpace (("default_zero(avg:a").toList)) = true ∧
     (parseQuery (("default_zero(avg:a").toList)).HasDefaultZero = true) :=
  ⟨⟨by decide, by decide,
    c8_unbalanced_skip.1 (("default_zero(avg:a").toList) 0 13 (by decide) (by decide)⟩,
   ⟨by decide, by decide,
    c8_unbalanced_skip.2 (("default_zero(avg:a").toList) (by decide) (by decide)⟩⟩

/-- C10: as stated the flag-depth agreement fails: the degenerate call
default_zero() is matched by the wrapped pass with HasDefaultZero true,
but the anchored unwrap pattern rejects its empty argument, recording a
nesting depth of 0. -/
theorem c10_counterexample :
    ((extractAllMetrics (("default_zero()+avg:a").toList)).head?.map
      (fun m => (m.HasDefaultZero, m.DefaultZeroNesting))) = some (true, 0) ∧
    isComplexQuery (("default_zero()+avg:a").toList) = true := by
  refine ⟨by decide, by decide⟩

/-- C10 (amended): every wrapped-pass span has HasDefaultZero true and
every bare-pass span has HasDefaultZero false with depth exactly 0, so a
recorded depth of at least 1 implies the wrapped flag; but a wrapped-pass
span can carry depth 0 when the anchored unwrap pattern fails on its
text (for example an empty wrapper argument). -/
theorem c10_flag_depth (q : List Char) (m : MetricInfo) :
    (m ∈ extractDefaultZeroMetrics q → m.HasDefaultZero = true) ∧
    (m ∈ extractRemainingMetrics q (extractDefaultZeroMetrics q) →
      m.HasDefaultZero = false ∧ m.DefaultZeroNesting = 0) ∧
    (m ∈ extractAllMetrics q → 1 ≤ m.DefaultZeroNesting → m.HasDefaultZero = true) := by
  have hdz : ∀ m2 ∈ extractDefaultZeroMetrics q, m2.HasDefaultZero = true := by
    intro m2 hm2
    obtain ⟨s, me, e, _, _, _, rfl⟩ :=
      dzLoop_mem q (dzFindAll q) (fun _ => false) m2 hm2
    rfl
  have hrem : ∀ m2 ∈ extractRemainingMetrics q (extractDefaultZeroMetrics q),
      m2.HasDefaultZero = false ∧ m2.DefaultZeroNesting = 0 := by
    intro m2 hm2
    obtain ⟨s, e, _, _, rfl⟩ := remLoop_mem q _ (bareFindAll q) m2 hm2
    exact ⟨rfl, rfl⟩
  refine ⟨fun h => hdz m h, fun h => hrem m h, ?_⟩
  intro hm hn
  rw [extractAllMetrics] at hm
  rcases List.mem_append.mp hm with h | h
  · exact hdz m h
  · have h0 := (hrem m h).2
    omega

/-- Witness for C10 (amended) at a wrapped span, a bare span and a
depth-one span of the combined extractor. -/
theorem c10_witness :
    (({ OriginalMetric := ("default_zero(avg:a)").toList,
        CleanMetric := ("avg:a").toList, HasDefaultZero := true,
        DefaultZeroNesting := 1, StartPos := 0, EndPos := 19 } : MetricInfo) ∈
       extractDefaultZeroMetrics (("default_zero(avg:a)").toList) ∧
     ({ OriginalMetric := ("default_zero(avg:a)").toList,
        CleanMetric := ("avg:a").toList, HasDefaultZero := true,
        DefaultZeroNesting := 1, StartPos := 0, EndPos := 19 } : MetricInfo).HasDefaultZero
       = true) ∧
    (({ OriginalMetric := ("sum:b").toList, CleanMetric := ("sum:b").toList,
        HasDefaultZero := false, DefaultZeroNesting := 0, StartPos := 0,
        EndPos := 5 } : MetricInfo) ∈
       extractRemainingMetrics (("sum:b").toList)
         (extractDefaultZeroMetrics (("sum:b").toList)) ∧
     (({ OriginalMetric := ("sum:b").toList, CleanMetric := ("sum:b").toList,
         HasDefaultZero := false, DefaultZeroNesting := 0, StartPos := 0,
         EndPos := 5 } : MetricInfo).HasDefaultZero = false ∧
      ({ OriginalMetric := ("sum:b").toList, CleanMetric := ("sum:b").toList,
         HasDefaultZero := false, DefaultZeroNesting := 0, StartPos := 0,
         EndPos := 5 } : MetricInfo).DefaultZeroNesting = 0)) ∧
    (({ OriginalMetric := ("default_zero(avg:a)").toList,
        CleanMetric := ("avg:a").toList, HasDefaultZero := true,
        DefaultZeroNesting := 1, StartPos := 0, EndPos := 19 } : MetricInfo) ∈
       extractAllMetrics (("default_zero(avg:a)").toList) ∧
     ({ OriginalMetric := ("default_zero(avg:a)").toList,
        CleanMetric := ("avg:a").toList, HasDefaultZero := true,
        DefaultZeroNesting := 1, StartPos := 0, EndPos := 19 } : MetricInfo).HasDefaultZero
       = true) :=
  ⟨⟨by decide, (c10_flag_depth (("default_zero(avg:a)").toList) _).1 (by decide)⟩,
   ⟨by decide, (c10_flag_depth (("sum:b").toList) _).2.1 (by decide)⟩,
   ⟨by decide, (c10_flag_depth (("default_zero(avg:a)").toList) _).2.2 (by decide)
      (by decide)⟩⟩

end QueryLinter